import Mathlib

/-!
Verification of the stream multiplexer `SelectAll` from
`futures-util/src/stream/select_all.rs`.

Embedding choices:
* a member stream is embedded as a pure finite list of its items (`List α`);
  such a stream is always ready, produces its items in order, and ends when
  the list is exhausted;
* `StreamFuture` is the head-future unit obtained from a stream by
  `into_future`; for a pure list stream the wrapping is the identity and
  resolving it yields the pair `(head?, tail)`;
* the collaborator `FuturesUnordered` is not part of the verified source
  file, so it is modelled from the specification (see its doc comment);
  the nondeterministic readiness order of the unordered set is made explicit
  by a schedule: every poll of the set takes a choice index that selects
  which pending unit resolves;
* `Poll` mirrors the tri-state polling protocol (`Ready`/`Pending`).
-/

/-- A polling outcome: either ready with a value or pending (suspended). -/
inductive Poll (α : Type) where
  | ready : α → Poll α
  | pending : Poll α
deriving DecidableEq, Repr

/-- A head-future unit: the one-shot computation obtained from a member
stream by `into_future`.  For a pure list stream it is the stream itself. -/
abbrev StreamFuture (α : Type) := List α

/-- Resolving a head-future unit yields the optional next item together with
the remaining stream, i.e. `(head?, tail)` of the wrapped list stream. -/
def StreamFuture.resolve (s : StreamFuture α) : Option α × List α :=
  (s.head?, s.tail)

/-- Modelled from the spec: `UnorderedTaskSet` (the `FuturesUnordered`
collaborator, which lives outside the verified source file).  It is an
unordered, dynamically resizable collection of pending head-future units
together with a terminal flag; it supports insertion without polling the
inserted unit, reports length and emptiness, and reports the terminal flag,
which becomes set once the set has answered a poll with the empty signal. -/
structure FuturesUnordered (α : Type) where
  futures : List (StreamFuture α)
  terminatedFlag : Bool
deriving DecidableEq, Repr

/-- Modelled from the spec: a fresh, empty task set; not terminated. -/
def FuturesUnordered.new : FuturesUnordered α :=
  ⟨[], false⟩

/-- Modelled from the spec: insertion registers the unit without polling it. -/
def FuturesUnordered.push (fu : FuturesUnordered α) (f : StreamFuture α) :
    FuturesUnordered α :=
  ⟨fu.futures ++ [f], fu.terminatedFlag⟩

/-- Modelled from the spec: number of pending units. -/
def FuturesUnordered.len (fu : FuturesUnordered α) : Nat :=
  fu.futures.length

/-- Modelled from the spec: emptiness check. -/
def FuturesUnordered.is_empty (fu : FuturesUnordered α) : Bool :=
  fu.futures.isEmpty

/-- Modelled from the spec: terminal-state check. -/
def FuturesUnordered.is_terminated (fu : FuturesUnordered α) : Bool :=
  fu.terminatedFlag

/-- Modelled from the spec: poll the task set for the next resolved unit.
If the set is empty it answers the empty signal (`ready none`) and records
the terminal state.  Otherwise the schedule's choice index selects which
pending unit resolves (the set is unordered, so readiness order is
arbitrary; rotating to index `choice % length` and taking the head models
that arbitrary choice); the resolved unit is removed from the set and its
resolution is returned.  Pure list streams are always ready, so a non-empty
set never answers `pending` in this embedding. -/
def FuturesUnordered.poll_next (fu : FuturesUnordered α) (choice : Nat) :
    Poll (Option (Option α × List α)) × FuturesUnordered α :=
  match fu.futures.rotate (choice % fu.futures.length) with
  | [] => (Poll.ready none, ⟨[], true⟩)
  | s :: rest => (Poll.ready (some (StreamFuture.resolve s)), ⟨rest, fu.terminatedFlag⟩)

/-- The stream multiplexer: owns exactly one unordered task set of
head-future units. -/
structure SelectAll (α : Type) where
  inner : FuturesUnordered α
deriving DecidableEq, Repr

/-- Constructs a new, empty `SelectAll`. -/
def SelectAll.new : SelectAll α :=
  ⟨FuturesUnordered.new⟩

/-- Returns the number of streams contained in the set. -/
def SelectAll.len (sa : SelectAll α) : Nat :=
  sa.inner.len

/-- Returns true if the set contains no streams. -/
def SelectAll.is_empty (sa : SelectAll α) : Bool :=
  sa.inner.is_empty

/-- Push a stream into the set: the stream is wrapped by `into_future`
(the identity on pure list streams) and submitted to the inner task set,
which does not poll it. -/
def SelectAll.push (sa : SelectAll α) (stream : List α) : SelectAll α :=
  ⟨sa.inner.push stream⟩

/-- The multiplexer reports terminated exactly when the inner task set does. -/
def SelectAll.is_terminated (sa : SelectAll α) : Bool :=
  sa.inner.is_terminated

/-- The body of `poll_next`: loop polling the inner set; on a resolved unit
with a present item, push the remaining stream back and return the item; on
a resolved unit with an absent item (the member ended) restart the loop; on
the empty signal return end-of-sequence; `pending` propagates.  The loop is
driven by structural fuel; every restart shrinks the inner set by one, so
fuel `length + 1` (supplied by `SelectAll.poll_next`) always suffices and
the fuel-exhausted branch is unreachable there. -/
def SelectAll.pollNextLoop : Nat → SelectAll α → List Nat → Poll (Option α) × SelectAll α
  | 0, sa, _ => (Poll.pending, sa)
  | fuel + 1, sa, sched =>
    match sa.inner.poll_next (sched.headD 0) with
    | (Poll.ready (some (some item, remaining)), fu) =>
        (Poll.ready (some item), SelectAll.push ⟨fu⟩ remaining)
    | (Poll.ready (some (none, _)), fu) =>
        SelectAll.pollNextLoop fuel ⟨fu⟩ sched.tail
    | (Poll.ready none, fu) => (Poll.ready none, ⟨fu⟩)
    | (Poll.pending, fu) => (Poll.pending, ⟨fu⟩)

/-- Poll the multiplexer for its next item.  The schedule lists, for each
iteration of the internal loop, the readiness choice handed to the inner
set's poll. -/
def SelectAll.poll_next (sa : SelectAll α) (sched : List Nat) :
    Poll (Option α) × SelectAll α :=
  SelectAll.pollNextLoop (sa.inner.futures.length + 1) sa sched

/-- The construction loop of `select_all`: push each stream of the list in
order. -/
def SelectAll.select_allLoop : SelectAll α → List (List α) → SelectAll α
  | set, [] => set
  | set, stream :: streams => SelectAll.select_allLoop (set.push stream) streams

/-- Convert a list of streams into a `SelectAll`: start from the empty
multiplexer and push every stream in iteration order. -/
def select_all (streams : List (List α)) : SelectAll α :=
  SelectAll.select_allLoop SelectAll.new streams

/-- The `FromIterator` construction: it simply calls `select_all`. -/
def SelectAll.from_iter (streams : List (List α)) : SelectAll α :=
  select_all streams

/-- The `Extend` implementation: push each stream of the iterable in
iteration order; a plain synchronous mutation (an ordinary total function,
never suspending). -/
def SelectAll.extend : SelectAll α → List (List α) → SelectAll α
  | sa, [] => sa
  | sa, st :: sts => SelectAll.extend (sa.push st) sts

/-- Follows the spec's words (for comparison with `select_all` from the
source): merge builds an empty multiplexer then inserts every stream from
the iterable, in iteration order. -/
def mergeSpec (streams : List (List α)) : SelectAll α :=
  List.foldl SelectAll.push SelectAll.new streams

/-- Total number of items still held by the member streams of the
multiplexer; used as fuel bound when driving it to termination. -/
def SelectAll.totalItems (sa : SelectAll α) : Nat :=
  (sa.inner.futures.map List.length).sum

/-- Drive loop: repeatedly call `poll_next`, collecting the returned items,
until end-of-sequence.  One schedule per `poll_next` call. -/
def SelectAll.driveLoop : Nat → SelectAll α → List (List Nat) → List α
  | 0, _, _ => []
  | fuel + 1, sa, scheds =>
    match sa.poll_next (scheds.headD []) with
    | (Poll.ready (some item), sa2) => item :: SelectAll.driveLoop fuel sa2 scheds.tail
    | (Poll.ready none, _) => []
    | (Poll.pending, _) => []

/-- Drive the multiplexer to termination through `poll_next`, returning the
list of all items returned, in order.  Each returned item consumes exactly
one item of some member stream, so fuel `totalItems + 1` always reaches
end-of-sequence. -/
def SelectAll.drive (sa : SelectAll α) (scheds : List (List Nat)) : List α :=
  SelectAll.driveLoop (sa.totalItems + 1) sa scheds

/-- The sequence of poll outcomes observed over a list of schedules:
`poll_next` is called once per schedule, threading the state. -/
def SelectAll.pollSeq : SelectAll α → List (List Nat) → List (Poll (Option α))
  | _, [] => []
  | sa, sched :: rest =>
    (sa.poll_next sched).1 :: SelectAll.pollSeq (sa.poll_next sched).2 rest

/-- Multiset of items held by a multiset of member streams. -/
def msItems (S : Multiset (List α)) : Multiset α :=
  (S.map (fun l => (l : Multiset α))).sum

/-- A list is a merge of a multiset of member streams when it can be
produced by repeatedly emitting the head of some member, every member
ending empty.  This is the interleaving relation: it preserves each
member's own order and uses every item exactly once. -/
inductive Merge : Multiset (List α) → List α → Prop where
  | done : ∀ {S : Multiset (List α)}, (∀ l ∈ S, l = []) → Merge S []
  | step : ∀ {S : Multiset (List α)} {a : α} {rest out : List α},
      Merge (rest ::ₘ S) out → Merge ((a :: rest) ::ₘ S) (a :: out)

/-! ### Helper lemmas -/

theorem FuturesUnordered.poll_next_rot_nil (fu : FuturesUnordered α) (c : Nat)
    (h : fu.futures.rotate (c % fu.futures.length) = []) :
    fu.poll_next c = (Poll.ready none, ⟨[], true⟩) := by
  simp [FuturesUnordered.poll_next, h]

theorem FuturesUnordered.poll_next_rot_cons (fu : FuturesUnordered α) (c : Nat)
    (s : StreamFuture α) (rest : List (StreamFuture α))
    (h : fu.futures.rotate (c % fu.futures.length) = s :: rest) :
    fu.poll_next c =
      (Poll.ready (some (StreamFuture.resolve s)), ⟨rest, fu.terminatedFlag⟩) := by
  simp [FuturesUnordered.poll_next, h]

theorem SelectAll.pollNextLoop_succ_item (fuel : Nat) (sa : SelectAll α)
    (sched : List Nat) (a : α) (rem : List α) (fu : FuturesUnordered α)
    (h : sa.inner.poll_next (sched.headD 0) = (Poll.ready (some (some a, rem)), fu)) :
    SelectAll.pollNextLoop (fuel + 1) sa sched =
      (Poll.ready (some a), SelectAll.push ⟨fu⟩ rem) := by
  simp only [SelectAll.pollNextLoop]
  rw [h]

theorem SelectAll.pollNextLoop_succ_ended (fuel : Nat) (sa : SelectAll α)
    (sched : List Nat) (rem : List α) (fu : FuturesUnordered α)
    (h : sa.inner.poll_next (sched.headD 0) = (Poll.ready (some (none, rem)), fu)) :
    SelectAll.pollNextLoop (fuel + 1) sa sched =
      SelectAll.pollNextLoop fuel ⟨fu⟩ sched.tail := by
  simp only [SelectAll.pollNextLoop]
  rw [h]

theorem SelectAll.pollNextLoop_succ_none (fuel : Nat) (sa : SelectAll α)
    (sched : List Nat) (fu : FuturesUnordered α)
    (h : sa.inner.poll_next (sched.headD 0) = (Poll.ready none, fu)) :
    SelectAll.pollNextLoop (fuel + 1) sa sched = (Poll.ready none, ⟨fu⟩) := by
  simp only [SelectAll.pollNextLoop]
  rw [h]

theorem msItems_cons (l : List α) (S : Multiset (List α)) :
    msItems (l ::ₘ S) = ↑l + msItems S := by
  simp [msItems]

theorem msItems_add (S T : Multiset (List α)) :
    msItems (S + T) = msItems S + msItems T := by
  simp [msItems]

theorem msItems_eq_zero (E : Multiset (List α)) (h : ∀ e ∈ E, e = []) :
    msItems E = 0 := by
  induction E using Multiset.induction_on with
  | empty => simp [msItems]
  | cons a s ih =>
    have ha : a = [] := h a (Multiset.mem_cons_self a s)
    rw [msItems_cons, ha]
    have : msItems s = 0 := ih fun e he => h e (Multiset.mem_cons_of_mem he)
    simp [this]

theorem msItems_coe_join (ls : List (List α)) :
    msItems (↑ls : Multiset (List α)) = ↑ls.flatten := by
  induction ls with
  | nil => simp [msItems]
  | cons l ls ih =>
    rw [← Multiset.cons_coe, msItems_cons, ih]
    simp

theorem card_msItems_coe (ls : List (List α)) :
    Multiset.card (msItems (↑ls : Multiset (List α))) = (ls.map List.length).sum := by
  induction ls with
  | nil => simp [msItems]
  | cons l ls ih =>
    rw [← Multiset.cons_coe, msItems_cons, Multiset.card_add, ih]
    simp

theorem coe_append_singleton (l : List α) (x : α) :
    (↑(l ++ [x]) : Multiset α) = x ::ₘ ↑l :=
  Multiset.coe_eq_coe.mpr (List.perm_append_singleton x l)

/-- Characterization of one `pollNextLoop` run, given enough fuel: the
outcome is never `pending`; on `ready none` every member stream in the set
was already ended and the final set is empty with the terminal flag set; on
`ready (some a)` the initial set splits into a multiset `E` of ended
(empty) streams that were absorbed, the resolved stream `a :: rest`, and
the untouched streams `F`, and the final set holds exactly `rest` together
with `F`. -/
theorem SelectAll.pollNextLoop_spec (fuel : Nat) :
    ∀ (sa : SelectAll α) (sched : List Nat), sa.inner.futures.length < fuel →
    (SelectAll.pollNextLoop fuel sa sched = (Poll.ready none, ⟨⟨[], true⟩⟩) ∧
       ∀ s ∈ sa.inner.futures, s = []) ∨
    (∃ a rest F E sa2,
       SelectAll.pollNextLoop fuel sa sched = (Poll.ready (some a), sa2) ∧
       (∀ e ∈ E, e = ([] : List α)) ∧
       (↑sa.inner.futures : Multiset (List α)) = E + (a :: rest) ::ₘ F ∧
       (↑sa2.inner.futures : Multiset (List α)) = rest ::ₘ F) := by
  induction fuel with
  | zero => intro sa sched h; omega
  | succ fuel ih =>
    intro sa sched hlen
    rcases hrot : sa.inner.futures.rotate ((sched.headD 0) % sa.inner.futures.length) with
      _ | ⟨s, rest⟩
    · have hp := List.rotate_perm sa.inner.futures ((sched.headD 0) % sa.inner.futures.length)
      rw [hrot] at hp
      have hnil : sa.inner.futures = [] := hp.symm.eq_nil
      have hpoll := FuturesUnordered.poll_next_rot_nil sa.inner (sched.headD 0) hrot
      left
      refine ⟨SelectAll.pollNextLoop_succ_none fuel sa sched _ hpoll, ?_⟩
      intro x hx
      rw [hnil] at hx
      cases hx
    · have hp := List.rotate_perm sa.inner.futures ((sched.headD 0) % sa.inner.futures.length)
      rw [hrot] at hp
      have hperm : List.Perm sa.inner.futures (s :: rest) := hp.symm
      have hpoll := FuturesUnordered.poll_next_rot_cons sa.inner (sched.headD 0) s rest hrot
      cases s with
      | nil =>
        have hpoll2 : sa.inner.poll_next (sched.headD 0) =
            (Poll.ready (some (none, [])), ⟨rest, sa.inner.terminatedFlag⟩) := by
          simpa [StreamFuture.resolve] using hpoll
        have hstep := SelectAll.pollNextLoop_succ_ended fuel sa sched []
          ⟨rest, sa.inner.terminatedFlag⟩ hpoll2
        have hlen2 : rest.length < fuel := by
          have hl := hperm.length_eq
          simp at hl
          omega
        rcases ih ⟨⟨rest, sa.inner.terminatedFlag⟩⟩ sched.tail hlen2 with
          ⟨heq, hall⟩ | ⟨a, r, F, E, sa2, heq, hE, hpre, hpost⟩
        · left
          refine ⟨by rw [hstep]; exact heq, ?_⟩
          intro x hx
          rcases List.mem_cons.mp (hperm.mem_iff.mp hx) with h1 | h1
          · exact h1
          · exact hall x h1
        · right
          refine ⟨a, r, F, [] ::ₘ E, sa2, by rw [hstep]; exact heq, ?_, ?_, hpost⟩
          · intro e he
            rcases Multiset.mem_cons.mp he with h1 | h1
            · exact h1
            · exact hE e h1
          · have hco : (↑sa.inner.futures : Multiset (List α)) = ↑(([] : List α) :: rest) :=
              Multiset.coe_eq_coe.mpr hperm
            rw [hco, ← Multiset.cons_coe, hpre, Multiset.cons_add]
      | cons a tl =>
        have hpoll2 : sa.inner.poll_next (sched.headD 0) =
            (Poll.ready (some (some a, tl)), ⟨rest, sa.inner.terminatedFlag⟩) := by
          simpa [StreamFuture.resolve] using hpoll
        have hstep := SelectAll.pollNextLoop_succ_item fuel sa sched a tl
          ⟨rest, sa.inner.terminatedFlag⟩ hpoll2
        right
        refine ⟨a, tl, ↑rest, 0, SelectAll.push ⟨⟨rest, sa.inner.terminatedFlag⟩⟩ tl,
          hstep, ?_, ?_, ?_⟩
        · intro e he
          cases he
        · have hco : (↑sa.inner.futures : Multiset (List α)) = ↑((a :: tl) :: rest) :=
            Multiset.coe_eq_coe.mpr hperm
          rw [hco, ← Multiset.cons_coe, zero_add]
        · exact coe_append_singleton rest tl

/-- Instance of the loop characterization at the fuel `poll_next` uses. -/
theorem SelectAll.poll_next_spec (sa : SelectAll α) (sched : List Nat) :
    (sa.poll_next sched = (Poll.ready none, ⟨⟨[], true⟩⟩) ∧
       ∀ s ∈ sa.inner.futures, s = []) ∨
    (∃ a rest F E sa2,
       sa.poll_next sched = (Poll.ready (some a), sa2) ∧
       (∀ e ∈ E, e = ([] : List α)) ∧
       (↑sa.inner.futures : Multiset (List α)) = E + (a :: rest) ::ₘ F ∧
       (↑sa2.inner.futures : Multiset (List α)) = rest ::ₘ F) :=
  SelectAll.pollNextLoop_spec (sa.inner.futures.length + 1) sa sched
    (Nat.lt_succ_self _)

theorem Merge.consEmpty {S : Multiset (List α)} {out : List α}
    (h : Merge S out) : Merge (([] : List α) ::ₘ S) out := by
  induction h with
  | done hall =>
    refine Merge.done ?_
    intro l hl
    rcases Multiset.mem_cons.mp hl with h1 | h1
    · exact h1
    · exact hall l h1
  | step hm ih =>
    rw [Multiset.cons_swap]
    exact Merge.step (by rw [Multiset.cons_swap]; exact ih)

theorem Merge.addEmpty {S : Multiset (List α)} {out : List α}
    (E : Multiset (List α)) (hE : ∀ e ∈ E, e = []) (h : Merge S out) :
    Merge (E + S) out := by
  induction E using Multiset.induction_on with
  | empty => simpa using h
  | cons e E ih =>
    have he : e = [] := hE e (Multiset.mem_cons_self e E)
    have hrest := ih fun x hx => hE x (Multiset.mem_cons_of_mem hx)
    rw [Multiset.cons_add, he]
    exact hrest.consEmpty

theorem Merge.sublist {S : Multiset (List α)} {out : List α}
    (h : Merge S out) : ∀ l ∈ S, l.Sublist out := by
  induction h with
  | done hall =>
    intro l hl
    rw [hall l hl]
  | step hm ih =>
    intro l hl
    rename_i S a rest out
    rcases Multiset.mem_cons.mp hl with h1 | h1
    · rw [h1]
      exact List.Sublist.cons₂ a (ih rest (Multiset.mem_cons_self rest S))
    · exact List.Sublist.cons a (ih l (Multiset.mem_cons_of_mem h1))

theorem Merge.items {S : Multiset (List α)} {out : List α}
    (h : Merge S out) : (↑out : Multiset α) = msItems S := by
  induction h with
  | done hall => rw [msItems_eq_zero _ hall, Multiset.coe_nil]
  | step hm ih =>
    rename_i S a rest out
    rw [← Multiset.cons_coe, ih, msItems_cons, msItems_cons, ← Multiset.cons_coe]
    rw [Multiset.cons_add]

/-- Driving the multiplexer with any schedules, given fuel exceeding the
number of remaining items, produces a merge of the member streams held by
its task set. -/
theorem SelectAll.driveLoop_merge (fuel : Nat) :
    ∀ (sa : SelectAll α) (scheds : List (List Nat)),
    Multiset.card (msItems (↑sa.inner.futures : Multiset (List α))) < fuel →
    Merge (↑sa.inner.futures : Multiset (List α))
      (SelectAll.driveLoop fuel sa scheds) := by
  induction fuel with
  | zero => intro sa scheds h; omega
  | succ fuel ih =>
    intro sa scheds hlt
    rcases SelectAll.poll_next_spec sa (scheds.headD []) with
      ⟨heq, hall⟩ | ⟨a, rest, F, E, sa2, heq, hE, hpre, hpost⟩
    · have : SelectAll.driveLoop (fuel + 1) sa scheds = [] := by
        simp only [SelectAll.driveLoop]
        rw [heq]
      rw [this]
      exact Merge.done fun l hl => hall l (Multiset.mem_coe.mp hl)
    · have hstep : SelectAll.driveLoop (fuel + 1) sa scheds =
          a :: SelectAll.driveLoop fuel sa2 scheds.tail := by
        simp only [SelectAll.driveLoop]
        rw [heq]
      have h2 : msItems (↑sa2.inner.futures : Multiset (List α)) = ↑rest + msItems F := by
        rw [hpost, msItems_cons]
      have h1 : msItems (↑sa.inner.futures : Multiset (List α)) =
          a ::ₘ msItems (↑sa2.inner.futures : Multiset (List α)) := by
        rw [hpre, msItems_add, msItems_eq_zero E hE, msItems_cons, h2]
        rw [zero_add, ← Multiset.cons_coe, Multiset.cons_add]
      have hcard : Multiset.card (msItems (↑sa2.inner.futures : Multiset (List α))) < fuel := by
        have hc := congrArg Multiset.card h1
        rw [Multiset.card_cons] at hc
        omega
      have hm := ih sa2 scheds.tail hcard
      rw [hpost] at hm
      have hm2 : Merge ((a :: rest) ::ₘ F) (a :: SelectAll.driveLoop fuel sa2 scheds.tail) :=
        Merge.step hm
      rw [hstep, hpre]
      exact Merge.addEmpty E hE hm2

theorem SelectAll.select_allLoop_eq (ss : List (List α)) :
    ∀ sa : SelectAll α, SelectAll.select_allLoop sa ss =
      ⟨⟨sa.inner.futures ++ ss, sa.inner.terminatedFlag⟩⟩ := by
  induction ss with
  | nil => intro sa; simp [SelectAll.select_allLoop]
  | cons st sts ih =>
    intro sa
    rw [SelectAll.select_allLoop, ih]
    simp [SelectAll.push, FuturesUnordered.push]

theorem select_all_eq (ss : List (List α)) :
    select_all ss = ⟨⟨ss, false⟩⟩ := by
  rw [select_all, SelectAll.select_allLoop_eq]
  rfl

theorem foldl_push_eq (ss : List (List α)) :
    ∀ sa : SelectAll α, List.foldl SelectAll.push sa ss =
      ⟨⟨sa.inner.futures ++ ss, sa.inner.terminatedFlag⟩⟩ := by
  induction ss with
  | nil => intro sa; simp [List.foldl]
  | cons st sts ih =>
    intro sa
    rw [List.foldl, ih]
    simp [SelectAll.push, FuturesUnordered.push]

theorem SelectAll.extend_eq (ss : List (List α)) :
    ∀ sa : SelectAll α, SelectAll.extend sa ss =
      ⟨⟨sa.inner.futures ++ ss, sa.inner.terminatedFlag⟩⟩ := by
  induction ss with
  | nil => intro sa; simp [SelectAll.extend]
  | cons st sts ih =>
    intro sa
    rw [SelectAll.extend, ih]
    simp [SelectAll.push, FuturesUnordered.push]

/-- Driving any multiplexer to termination yields a merge (interleaving)
of the member streams its task set holds. -/
theorem SelectAll.drive_merge (sa : SelectAll α) (scheds : List (List Nat)) :
    Merge (↑sa.inner.futures : Multiset (List α)) (sa.drive scheds) := by
  rw [SelectAll.drive]
  apply SelectAll.driveLoop_merge
  rw [card_msItems_coe]
  simp [SelectAll.totalItems]

/-- Helper shared by the exhaustion claims: when every member stream in the
set has already ended, `poll_next` answers end-of-sequence and leaves the
set empty with the terminal flag set. -/
theorem SelectAll.poll_next_all_ended (sa : SelectAll α) (sched : List Nat)
    (h : ∀ s ∈ sa.inner.futures, s = []) :
    sa.poll_next sched = (Poll.ready none, ⟨⟨[], true⟩⟩) := by
  rcases SelectAll.poll_next_spec sa sched with
    ⟨heq, _⟩ | ⟨a, rest, F, E, sa2, heq, hE, hpre, hpost⟩
  · exact heq
  · exfalso
    have hmem : (a :: rest) ∈ (↑sa.inner.futures : Multiset (List α)) := by
      rw [hpre]
      exact Multiset.mem_add.mpr (Or.inr (Multiset.mem_cons_self _ _))
    exact List.cons_ne_nil a rest (h _ (Multiset.mem_coe.mp hmem))

/-! ### Claim theorems -/

/-- C1: for every multiplexer built from members and driven to termination
through poll-next, under every schedule, the multiset of all items ever
returned equals the multiset union of the items each member stream would
have produced standalone; no item is duplicated and none is dropped. -/
theorem selectAll_drive_multiset (members : List (List α)) (scheds : List (List Nat)) :
    (↑(SelectAll.drive (select_all members) scheds) : Multiset α) =
      ↑members.flatten := by
  have hm := SelectAll.drive_merge (select_all members) scheds
  have hf : (select_all members).inner.futures = members := by rw [select_all_eq]
  rw [hf] at hm
  rw [Merge.items hm, msItems_coe_join]

/-- C2: a resolution with an absent item is never surfaced: whenever every
member stream of the multiplexer has already ended, poll-next absorbs all
the hollow resolutions inside its loop and returns end-of-sequence. -/
theorem selectAll_poll_next_ended_members (sa : SelectAll α) (sched : List Nat)
    (h : ∀ s ∈ sa.inner.futures, s = []) :
    sa.poll_next sched = (Poll.ready none, ⟨⟨[], true⟩⟩) :=
  SelectAll.poll_next_all_ended sa sched h

theorem selectAll_poll_next_ended_members_witness :
    (∀ s ∈ (select_all [([] : List Nat), []]).inner.futures, s = []) ∧
    (select_all [([] : List Nat), []]).poll_next [0] =
      (Poll.ready none, ⟨⟨[], true⟩⟩) :=
  ⟨by decide, selectAll_poll_next_ended_members _ _ (by decide)⟩

/-- C3: whenever the polled unit resolves with a present item and a
remaining stream, poll-next pushes the remaining stream back into the task
set exactly as insert would and returns the item, ending the call. -/
theorem selectAll_poll_next_item_requeues (sa : SelectAll α) (sched : List Nat)
    (a : α) (rem : List α) (fu : FuturesUnordered α)
    (h : sa.inner.poll_next (sched.headD 0) = (Poll.ready (some (some a, rem)), fu)) :
    sa.poll_next sched = (Poll.ready (some a), SelectAll.push ⟨fu⟩ rem) := by
  rw [SelectAll.poll_next]
  exact SelectAll.pollNextLoop_succ_item _ sa sched a rem fu h

theorem selectAll_poll_next_item_requeues_witness :
    (select_all [[(1 : Nat)]]).inner.poll_next (([0] : List Nat).headD 0) =
      (Poll.ready (some (some 1, [])), ⟨[], false⟩) ∧
    (select_all [[(1 : Nat)]]).poll_next [0] =
      (Poll.ready (some 1), SelectAll.push ⟨⟨[], false⟩⟩ []) :=
  ⟨by decide, selectAll_poll_next_item_requeues _ _ _ _ _ (by decide)⟩

/-- C4: a multiplexer with zero members answers end-of-sequence (ready, not
pending) to the first poll and to every poll thereafter, for any schedules. -/
theorem selectAll_pollSeq_empty_none (sa : SelectAll α) (scheds : List (List Nat))
    (h : sa.len = 0) :
    ∀ r ∈ SelectAll.pollSeq sa scheds, r = Poll.ready none := by
  induction scheds generalizing sa with
  | nil => intro r hr; simp [SelectAll.pollSeq] at hr
  | cons sched rest ih =>
    have hfut : sa.inner.futures = [] := List.length_eq_zero.mp h
    have hp := SelectAll.poll_next_all_ended sa sched
      (by rw [hfut]; intro s hs; cases hs)
    intro r hr
    rw [SelectAll.pollSeq] at hr
    rw [hp] at hr
    rcases List.mem_cons.mp hr with h1 | h1
    · exact h1
    · exact ih ⟨⟨[], true⟩⟩ rfl r h1

theorem selectAll_pollSeq_empty_none_witness :
    (SelectAll.new : SelectAll Nat).len = 0 ∧
    ∀ r ∈ SelectAll.pollSeq (SelectAll.new : SelectAll Nat) [[], [0], [1, 2]],
      r = Poll.ready none :=
  ⟨rfl, selectAll_pollSeq_empty_none _ _ rfl⟩

/-- C5: within a single member, items are emitted in that member's own
production order across the entire drive: every member list embeds, in
order, into the full output sequence. -/
theorem selectAll_drive_member_order (members : List (List α))
    (scheds : List (List Nat)) (m : List α) (h : m ∈ members) :
    m.Sublist (SelectAll.drive (select_all members) scheds) := by
  have hm := SelectAll.drive_merge (select_all members) scheds
  have hf : (select_all members).inner.futures = members := by rw [select_all_eq]
  rw [hf] at hm
  exact Merge.sublist hm m (Multiset.mem_coe.mpr h)

theorem selectAll_drive_member_order_witness :
    [1, 2] ∈ [[1, 2], [(3 : Nat)]] ∧
    List.Sublist [1, 2] (SelectAll.drive (select_all [[1, 2], [(3 : Nat)]]) [[1], [0], [0]]) :=
  ⟨by decide, selectAll_drive_member_order [[1, 2], [3]] [[1], [0], [0]] [1, 2] (by decide)⟩

/-- C6: insert (push) registers the stream with the task set unconsumed
and unpolled, always succeeds, and increases the count by exactly one. -/
theorem selectAll_push_count (sa : SelectAll α) (s : List α) :
    (sa.push s).len = sa.len + 1 ∧
    (sa.push s).inner.futures = sa.inner.futures ++ [s] := by
  constructor
  · simp [SelectAll.push, SelectAll.len, FuturesUnordered.push, FuturesUnordered.len]
  · rfl

/-- C7: the multiplexer reports terminated exactly when its owned task set
reports terminated, in every state. -/
theorem selectAll_is_terminated_delegates (sa : SelectAll α) :
    sa.is_terminated = sa.inner.is_terminated := rfl

/-- C8: select-all (and the construct-from conversion, which calls it)
produces exactly the multiplexer obtained by starting from the empty one
and inserting every stream of the iterable in iteration order, before any
polling occurs. -/
theorem select_all_refines_merge (ss : List (List α)) :
    select_all ss = mergeSpec ss ∧ SelectAll.from_iter ss = select_all ss ∧
    (select_all ss).inner.futures = ss := by
  refine ⟨?_, rfl, ?_⟩
  · rw [select_all_eq, mergeSpec, foldl_push_eq]
    rfl
  · rw [select_all_eq]

/-- C9: extend registers each stream of the iterable, equivalent to calling
insert on each element in iteration order, so the count increases by the
number of elements; it is a plain total function (never suspends). -/
theorem selectAll_extend_spec (sa : SelectAll α) (ss : List (List α)) :
    SelectAll.extend sa ss = List.foldl SelectAll.push sa ss ∧
    (SelectAll.extend sa ss).inner.futures = sa.inner.futures ++ ss ∧
    (SelectAll.extend sa ss).len = sa.len + ss.length := by
  refine ⟨?_, ?_, ?_⟩
  · rw [SelectAll.extend_eq, foldl_push_eq]
  · rw [SelectAll.extend_eq]
  · rw [SelectAll.extend_eq]
    simp [SelectAll.len, FuturesUnordered.len]

/-- C10 counterexample: with members `[]` (already ended) and `[1]`, a
schedule that resolves the ended member first makes poll-next absorb it and
then return the item 1, so the call returns a present item yet the count
drops from 2 to 1. -/
theorem selectAll_poll_next_len_counterexample :
    (SelectAll.poll_next (select_all [[], [(1 : Nat)]]) [0]).1 = Poll.ready (some 1) ∧
    ((SelectAll.poll_next (select_all [[], [(1 : Nat)]]) [0]).2).len ≠
      (select_all [[], [(1 : Nat)]]).len := by
  decide

/-- C10 amended: whenever poll-next returns a present item, the count after
the call equals the count before minus the number of (necessarily ended)
members absorbed during the call: the resolved unit is balanced by
re-inserting the remaining stream, and the count decreases exactly by the
ended members. -/
theorem selectAll_poll_next_item_len (sa : SelectAll α) (sched : List Nat)
    (a : α) (sa2 : SelectAll α)
    (h : sa.poll_next sched = (Poll.ready (some a), sa2)) :
    ∃ (E F : Multiset (List α)) (rest : List α),
      (∀ e ∈ E, e = []) ∧
      (↑sa.inner.futures : Multiset (List α)) = E + (a :: rest) ::ₘ F ∧
      (↑sa2.inner.futures : Multiset (List α)) = rest ::ₘ F ∧
      sa2.len + Multiset.card E = sa.len := by
  rcases SelectAll.poll_next_spec sa sched with
    ⟨heq, _⟩ | ⟨a', rest, F, E, sa2', heq, hE, hpre, hpost⟩
  · rw [h] at heq
    simp at heq
  · rw [h] at heq
    simp only [Prod.mk.injEq, Poll.ready.injEq, Option.some.injEq] at heq
    obtain ⟨rfl, rfl⟩ := heq
    refine ⟨E, F, rest, hE, hpre, hpost, ?_⟩
    have c1 := congrArg Multiset.card hpre
    have c2 := congrArg Multiset.card hpost
    rw [Multiset.coe_card] at c1 c2
    simp only [Multiset.card_add, Multiset.card_cons] at c1 c2
    simp only [SelectAll.len, FuturesUnordered.len]
    omega

theorem selectAll_poll_next_item_len_witness :
    SelectAll.poll_next (select_all [[(1 : Nat)]]) [0] =
      (Poll.ready (some 1), ⟨⟨[[]], false⟩⟩) ∧
    ∃ (E F : Multiset (List Nat)) (rest : List Nat),
      (∀ e ∈ E, e = []) ∧
      (↑(select_all [[(1 : Nat)]]).inner.futures : Multiset (List Nat)) =
        E + (1 :: rest) ::ₘ F ∧
      (↑(⟨⟨[[]], false⟩⟩ : SelectAll Nat).inner.futures : Multiset (List Nat)) =
        rest ::ₘ F ∧
      (⟨⟨[[]], false⟩⟩ : SelectAll Nat).len + Multiset.card E =
        (select_all [[(1 : Nat)]]).len :=
  ⟨by decide, selectAll_poll_next_item_len (select_all [[(1 : Nat)]]) [0] 1
    (⟨⟨[[]], false⟩⟩ : SelectAll Nat) (by decide)⟩
